import Mathlib

/-!
Verification of the cycle-safe deep clone (`deepClone`) from
`src/inheritance.js` (lines 705-720):

  function deepClone(value, seen = new WeakMap()) {
    if (value === null || typeof value !== 'object') return value;
    if (seen.has(value)) return seen.get(value);
    if (Array.isArray(value)) {
      const arr = [];
      seen.set(value, arr);
      for (const v of value) arr.push(deepClone(v, seen));
      return arr;
    }
    const out = {};
    seen.set(value, out);
    for (const key of Object.keys(value)) {
      out[key] = deepClone(value[key], seen);
    }
    return out;
  }

The JavaScript object graph is embedded as an explicit heap: composite
values (arrays and plain objects) live at numeric addresses, and a `Val`
is either an opaque primitive or a reference to an address.  Object
identity (the WeakMap key) is address equality.  Allocation (`[]`, `{}`)
appends a fresh object at the end of the heap; `arr.push(x)` and
`out[key] = x` mutate the object in place at its address.  An object
carries, besides its `Object.keys`-visible string-keyed enumerable
fields (in insertion order), its prototype tag and a count of its
symbol-keyed / non-enumerable properties, which `deepClone` never reads
(`Object.keys` omits them) and which a fresh `{}` starts without.
Recursion is fueled; termination of the JavaScript function corresponds
to a computable sufficient fuel bound, proved below.
-/

namespace DC

/-- Prototype of a plain object: `base` is `Object.prototype` (what a
fresh `{}` literal gets), `other n` is any custom prototype. -/
inductive Proto where
  | base : Proto
  | other : Nat → Proto
deriving DecidableEq

/-- Opaque primitives: any JavaScript value with `value === null` or
`typeof value !== 'object'`; `deepClone` returns these unchanged. -/
inductive Prim where
  | null : Prim
  | undef : Prim
  | bool : Bool → Prim
  | num : Int → Prim
  | str : String → Prim
deriving DecidableEq

/-- A value: an opaque primitive, or a reference to a heap address. -/
inductive Val where
  | prim : Prim → Val
  | ref : Nat → Val
deriving DecidableEq

/-- A composite node: an array of elements, or a plain object with a
prototype tag, its enumerable string-keyed fields in insertion order
(the `Object.keys` view), and a count of hidden (symbol-keyed or
non-enumerable) properties that `Object.keys` does not list. -/
inductive Obj where
  | arr : List Val → Obj
  | obj : Proto → List (String × Val) → Nat → Obj
deriving DecidableEq

/-- The heap: address `a` holds `h[a]?`. -/
abbrev Heap := List Obj

/-- The `seen` WeakMap: an association list from source address to
clone address (most recent insertion first). -/
abbrev Assoc := List (Nat × Nat)

/-- `seen.get` / `seen.has`: look an address up in the visited map. -/
def seenFind : Assoc → Nat → Option Nat
  | [], _ => none
  | (k, d) :: t, a => if a = k then some d else seenFind t a

/-- `arr.push(v)` on the array object stored at address `d`. -/
def heapPush (h : Heap) (d : Nat) (v : Val) : Heap :=
  match h[d]? with
  | some (Obj.arr l) => h.set d (Obj.arr (l ++ [v]))
  | _ => h

/-- `out[key] = v` on the plain object stored at address `d` (the key is
fresh there, so the assignment appends a new enumerable field). -/
def heapWrite (h : Heap) (d : Nat) (k : String) (v : Val) : Heap :=
  match h[d]? with
  | some (Obj.obj p fs hid) => h.set d (Obj.obj p (fs ++ [(k, v)]) hid)
  | _ => h

mutual

/-- `deepClone(value, seen)`, fueled.  Primitives return unchanged; a
seen reference returns its recorded clone; otherwise a fresh empty
container of the matching kind is allocated at the end of the heap,
registered in `seen` before any recursion, and then populated. -/
def deepClone : Nat → Heap → Assoc → Val → Option (Val × Heap × Assoc)
  | 0, _, _, _ => none
  | _ + 1, h, seen, Val.prim p => some (Val.prim p, h, seen)
  | fuel + 1, h, seen, Val.ref a =>
    match seenFind seen a with
    | some d => some (Val.ref d, h, seen)
    | none =>
      match h[a]? with
      | none => none
      | some (Obj.arr elems) =>
        match cloneElems fuel (h ++ [Obj.arr []]) ((a, h.length) :: seen) h.length elems with
        | none => none
        | some (h', seen') => some (Val.ref h.length, h', seen')
      | some (Obj.obj _ fs _) =>
        match cloneFields fuel (h ++ [Obj.obj Proto.base [] 0]) ((a, h.length) :: seen) h.length fs with
        | none => none
        | some (h', seen') => some (Val.ref h.length, h', seen')

/-- `for (const v of value) arr.push(deepClone(v, seen))`: clone each
remaining element and push it onto the array at address `d`. -/
def cloneElems : Nat → Heap → Assoc → Nat → List Val → Option (Heap × Assoc)
  | _, h, seen, _, [] => some (h, seen)
  | 0, _, _, _, _ :: _ => none
  | fuel + 1, h, seen, d, v :: vs =>
    match deepClone fuel h seen v with
    | none => none
    | some (cv, h', seen') => cloneElems fuel (heapPush h' d cv) seen' d vs

/-- `for (const key of Object.keys(value)) out[key] = deepClone(value[key], seen)`:
clone each remaining field and write it into the object at address `d`. -/
def cloneFields : Nat → Heap → Assoc → Nat → List (String × Val) → Option (Heap × Assoc)
  | _, h, seen, _, [] => some (h, seen)
  | 0, _, _, _, _ :: _ => none
  | fuel + 1, h, seen, d, (k, v) :: fs =>
    match deepClone fuel h seen v with
    | none => none
    | some (cv, h', seen') => cloneFields fuel (heapWrite h' d k cv) seen' d fs

end

/-- The external entry point `clone(value) = deepClone(value)`: the
visited map starts empty (a fresh `new WeakMap()` default argument) and
is dropped from the result — it has no existence beyond the call. -/
def cloneTop (fuel : Nat) (h : Heap) (v : Val) : Option (Val × Heap) :=
  match deepClone fuel h [] v with
  | none => none
  | some (v', h', _) => some (v', h')

/-- The child values of a composite node (for an object: the values of
its `Object.keys`-listed fields, which is all the clone traverses). -/
def objVals : Obj → List Val
  | Obj.arr l => l
  | Obj.obj _ fs _ => fs.map (fun kv => kv.2)

/-- A value is closed below `n`: any reference it holds points below `n`. -/
def ClosedVal (n : Nat) : Val → Prop
  | Val.prim _ => True
  | Val.ref a => a < n

instance instDecClosedVal (n : Nat) : (v : Val) → Decidable (ClosedVal n v)
  | Val.prim _ => Decidable.isTrue trivial
  | Val.ref a => Nat.decLt a n

/-- All children of a node are closed below `n`. -/
def ClosedObj (n : Nat) (o : Obj) : Prop := ∀ v ∈ objVals o, ClosedVal n v

/-- A well-formed heap: no dangling references (in JavaScript every
object reference is valid, so every representable graph is closed). -/
def ClosedHeap (h : Heap) : Prop := ∀ o ∈ h, ClosedObj h.length o

/-- The current heap `h` still carries the original heap `H` unchanged
at the original addresses. -/
def SrcOK (H h : Heap) : Prop := H.length ≤ h.length ∧ ∀ i, i < H.length → h[i]? = H[i]?

/-- Every visited-map entry sends an original source address to an
allocated clone address beyond the original heap. -/
def SeenOK (H h : Heap) (σ : Assoc) : Prop :=
  ∀ a d, seenFind σ a = some d → a < H.length ∧ H.length ≤ d ∧ d < h.length

/-- `σ'` preserves every binding of `σ` (the WeakMap only grows and a
key is never re-bound). -/
def Extends (σ σ' : Assoc) : Prop := ∀ a d, seenFind σ a = some d → seenFind σ' a = some d

/-- The clone of a single value under visited map `σ`: a primitive
clones to itself, a reference clones to the reference recorded in `σ`. -/
def RelVal (σ : Assoc) : Val → Val → Prop
  | Val.prim p, w => w = Val.prim p
  | Val.ref a, w => ∃ d, seenFind σ a = some d ∧ w = Val.ref d

/-- Field-by-field clone relation: same keys in the same order, values
related by `RelVal`. -/
def RelFields (σ : Assoc) (fs fs' : List (String × Val)) : Prop :=
  List.Forall₂ (fun p q => p.1 = q.1 ∧ RelVal σ p.2 q.2) fs fs'

/-- The clone of a whole node: an array clones to an array of related
elements in order; an object clones to a plain object (`Object.prototype`,
no hidden properties) with related fields, whatever the source's
prototype and hidden properties were. -/
def RelObj (σ : Assoc) : Obj → Obj → Prop
  | Obj.arr l, o' => ∃ l', o' = Obj.arr l' ∧ List.Forall₂ (RelVal σ) l l'
  | Obj.obj _ fs _, o' => ∃ fs', o' = Obj.obj Proto.base fs' 0 ∧ RelFields σ fs fs'

/-- Visited-map entry `(a, d)` is fully populated: the clone heap holds
at `d` the complete clone of the source node at `a`. -/
def Complete (H h : Heap) (σ : Assoc) (a d : Nat) : Prop :=
  ∃ o o', H[a]? = some o ∧ h[d]? = some o' ∧ RelObj σ o o'

/-- Every visited-map entry is fully populated. -/
def AllComplete (H h : Heap) (σ : Assoc) : Prop :=
  ∀ a d, seenFind σ a = some d → Complete H h σ a d

/-- `h'` extends `h` without touching any existing address. -/
def Frame (h h' : Heap) : Prop :=
  h.length ≤ h'.length ∧ ∀ i, i < h.length → h'[i]? = h[i]?

/-- `h'` extends `h` touching no existing address except `d` (the
container currently being populated). -/
def FrameAt (d : Nat) (h h' : Heap) : Prop :=
  h.length ≤ h'.length ∧ ∀ i, i < h.length → i ≠ d → h'[i]? = h[i]?

/-- Every binding of `σ'` is either an old binding of `σ` or a freshly
allocated, fully populated clone. -/
def NewComplete (H h h' : Heap) (σ σ' : Assoc) : Prop :=
  ∀ a d, seenFind σ' a = some d →
    seenFind σ a = some d ∨ (h.length ≤ d ∧ Complete H h' σ' a d)

/-- Every address allocated during the call is recorded in the visited
map (allocation and registration are paired in the code). -/
def Covered (h h' : Heap) (σ' : Assoc) : Prop :=
  ∀ i, h.length ≤ i → i < h'.length → ∃ a, seenFind σ' a = some i

/- ### Basic lemmas about the model -/

theorem seenFind_cons (k d : Nat) (σ : Assoc) (a : Nat) :
    seenFind ((k, d) :: σ) a = if a = k then some d else seenFind σ a := rfl

theorem extends_refl (σ : Assoc) : Extends σ σ := fun _ _ h => h

theorem extends_trans {σ₁ σ₂ σ₃ : Assoc} (h₁ : Extends σ₁ σ₂) (h₂ : Extends σ₂ σ₃) :
    Extends σ₁ σ₃ := fun a d h => h₂ a d (h₁ a d h)

theorem extends_cons {σ : Assoc} {a d : Nat} (ha : seenFind σ a = none) :
    Extends σ ((a, d) :: σ) := by
  intro b e hb
  rw [seenFind_cons]
  split
  · rename_i hba; rw [hba] at hb; rw [hb] at ha; cases ha
  · exact hb

theorem relVal_mono {σ σ' : Assoc} {v w : Val} (hext : Extends σ σ')
    (h : RelVal σ v w) : RelVal σ' v w := by
  cases v with
  | prim p => exact h
  | ref a =>
    obtain ⟨d, hd, hw⟩ := h
    exact ⟨d, hext a d hd, hw⟩

theorem relFields_mono {σ σ' : Assoc} {fs fs' : List (String × Val)}
    (hext : Extends σ σ') (h : RelFields σ fs fs') : RelFields σ' fs fs' :=
  h.imp (fun _ _ hpq => ⟨hpq.1, relVal_mono hext hpq.2⟩)

theorem relObj_mono {σ σ' : Assoc} {o o' : Obj} (hext : Extends σ σ')
    (h : RelObj σ o o') : RelObj σ' o o' := by
  cases o with
  | arr l =>
    obtain ⟨l', rfl, hl⟩ := h
    exact ⟨l', rfl, hl.imp (fun _ _ hr => relVal_mono hext hr)⟩
  | obj p fs hid =>
    obtain ⟨fs', rfl, hf⟩ := h
    exact ⟨fs', rfl, relFields_mono hext hf⟩

theorem frame_refl (h : Heap) : Frame h h := ⟨Nat.le_refl _, fun _ _ => rfl⟩

theorem frame_trans {h₁ h₂ h₃ : Heap} (a : Frame h₁ h₂) (b : Frame h₂ h₃) :
    Frame h₁ h₃ :=
  ⟨Nat.le_trans a.1 b.1, fun i hi => (b.2 i (Nat.lt_of_lt_of_le hi a.1)).trans (a.2 i hi)⟩

theorem srcOK_refl (H : Heap) : SrcOK H H := ⟨Nat.le_refl _, fun _ _ => rfl⟩

theorem srcOK_of_frame {H h h' : Heap} (hs : SrcOK H h) (hf : Frame h h') : SrcOK H h' :=
  ⟨Nat.le_trans hs.1 hf.1, fun i hi => (hf.2 i (Nat.lt_of_lt_of_le hi hs.1)).trans (hs.2 i hi)⟩

theorem complete_mono {H h h' : Heap} {σ σ' : Assoc} {a d : Nat}
    (hext : Extends σ σ') (hd : h[d]? = h'[d]?) (hc : Complete H h σ a d) :
    Complete H h' σ' a d := by
  obtain ⟨o, o', ho, ho', hr⟩ := hc
  exact ⟨o, o', ho, hd ▸ ho', relObj_mono hext hr⟩

theorem heapPush_length (h : Heap) (d : Nat) (v : Val) :
    (heapPush h d v).length = h.length := by
  unfold heapPush; split <;> simp

theorem heapPush_get_self {h : Heap} {d : Nat} {l : List Val} (v : Val)
    (hd : h[d]? = some (Obj.arr l)) :
    (heapPush h d v)[d]? = some (Obj.arr (l ++ [v])) := by
  have hdlt : d < h.length := by
    rcases List.getElem?_eq_some_iff.mp hd with ⟨hlt, _⟩
    exact hlt
  unfold heapPush
  rw [hd]
  exact List.getElem?_set_self hdlt

theorem heapPush_get_ne {h : Heap} {d i : Nat} (v : Val) (hne : i ≠ d) :
    (heapPush h d v)[i]? = h[i]? := by
  unfold heapPush
  split
  · exact List.getElem?_set_ne (fun hdi => hne hdi.symm)
  · rfl

theorem heapWrite_length (h : Heap) (d : Nat) (k : String) (v : Val) :
    (heapWrite h d k v).length = h.length := by
  unfold heapWrite; split <;> simp

theorem heapWrite_get_self {h : Heap} {d : Nat} {pr : Proto} {fs : List (String × Val)}
    {hid : Nat} (k : String) (v : Val) (hd : h[d]? = some (Obj.obj pr fs hid)) :
    (heapWrite h d k v)[d]? = some (Obj.obj pr (fs ++ [(k, v)]) hid) := by
  have hdlt : d < h.length := by
    rcases List.getElem?_eq_some_iff.mp hd with ⟨hlt, _⟩
    exact hlt
  unfold heapWrite
  rw [hd]
  exact List.getElem?_set_self hdlt

theorem heapWrite_get_ne {h : Heap} {d i : Nat} (k : String) (v : Val) (hne : i ≠ d) :
    (heapWrite h d k v)[i]? = h[i]? := by
  unfold heapWrite
  split
  · exact List.getElem?_set_ne (fun hdi => hne hdi.symm)
  · rfl

theorem forall₂_mem_left {α β : Type} {R : α → β → Prop} :
    ∀ {l : List α} {l' : List β}, List.Forall₂ R l l' → ∀ x ∈ l, ∃ y ∈ l', R x y := by
  intro l l' hf
  induction hf with
  | nil => intro x hx; cases hx
  | cons hr _ ih =>
    intro x hx
    rcases List.mem_cons.mp hx with hx | hx
    · subst hx; exact ⟨_, List.mem_cons_self _ _, hr⟩
    · obtain ⟨y, hy, hxy⟩ := ih x hx
      exact ⟨y, List.mem_cons_of_mem _ hy, hxy⟩

theorem forall₂_mem_right {α β : Type} {R : α → β → Prop} :
    ∀ {l : List α} {l' : List β}, List.Forall₂ R l l' → ∀ y ∈ l', ∃ x ∈ l, R x y := by
  intro l l' hf
  induction hf with
  | nil => intro y hy; cases hy
  | cons hr _ ih =>
    intro y hy
    rcases List.mem_cons.mp hy with hy | hy
    · subst hy; exact ⟨_, List.mem_cons_self _ _, hr⟩
    · obtain ⟨x, hx, hxy⟩ := ih y hy
      exact ⟨x, List.mem_cons_of_mem _ hx, hxy⟩

theorem forall₂_getElem_left {α β : Type} {R : α → β → Prop} :
    ∀ {l : List α} {l' : List β}, List.Forall₂ R l l' →
      ∀ {i : Nat} {x : α}, l[i]? = some x → ∃ y, l'[i]? = some y ∧ R x y := by
  intro l l' hf
  induction hf with
  | nil => intro i x hx; simp at hx
  | cons hr _ ih =>
    intro i x hx
    cases i with
    | zero =>
      simp at hx
      subst hx
      exact ⟨_, by simp, hr⟩
    | succ j =>
      obtain ⟨y, hy, hxy⟩ := ih (by simpa using hx)
      exact ⟨y, by simpa using hy, hxy⟩

/- ### The main structural invariant of one clone call -/

/-- What one fueled `deepClone` call guarantees: the existing heap is
untouched, the visited map only grows, its entries stay well-placed, the
result is the `σ'`-clone of the input, every new entry is a freshly
allocated and fully populated clone, and every fresh address is
registered. -/
def DCPost (H h : Heap) (σ : Assoc) (v v' : Val) (h' : Heap) (σ' : Assoc) : Prop :=
  Frame h h' ∧ Extends σ σ' ∧ SeenOK H h' σ' ∧ RelVal σ' v v' ∧
  NewComplete H h h' σ σ' ∧ Covered h h' σ'

/-- What the array-population loop guarantees: like `DCPost` but the
array under construction at `d` grows by the clones of the remaining
source elements `vs`, in order. -/
def CEPost (H h : Heap) (σ : Assoc) (d : Nat) (acc vs : List Val)
    (h' : Heap) (σ' : Assoc) : Prop :=
  FrameAt d h h' ∧ Extends σ σ' ∧ SeenOK H h' σ' ∧
  (∃ cs, h'[d]? = some (Obj.arr (acc ++ cs)) ∧ List.Forall₂ (RelVal σ') vs cs) ∧
  NewComplete H h h' σ σ' ∧ Covered h h' σ'

/-- What the object-population loop guarantees: the object under
construction at `d` (prototype and hidden-property count untouched)
grows by the cloned remaining fields `fs`, keys preserved in order. -/
def CFPost (H h : Heap) (σ : Assoc) (d : Nat) (pr : Proto) (hid : Nat)
    (acc fs : List (String × Val)) (h' : Heap) (σ' : Assoc) : Prop :=
  FrameAt d h h' ∧ Extends σ σ' ∧ SeenOK H h' σ' ∧
  (∃ cs, h'[d]? = some (Obj.obj pr (acc ++ cs) hid) ∧ RelFields σ' fs cs) ∧
  NewComplete H h h' σ σ' ∧ Covered h h' σ'

theorem cePost_nil {H h : Heap} {σ : Assoc} {d : Nat} {acc : List Val}
    (hseen : SeenOK H h σ) (hacc : h[d]? = some (Obj.arr acc)) :
    CEPost H h σ d acc [] h σ := by
  refine ⟨⟨Nat.le_refl _, fun _ _ _ => rfl⟩, extends_refl σ, hseen,
    ⟨[], by simp [hacc], List.Forall₂.nil⟩, fun a e he => Or.inl he, ?_⟩
  intro i h1 h2
  omega

theorem cfPost_nil {H h : Heap} {σ : Assoc} {d : Nat} {pr : Proto} {hid : Nat}
    {acc : List (String × Val)}
    (hseen : SeenOK H h σ) (hacc : h[d]? = some (Obj.obj pr acc hid)) :
    CFPost H h σ d pr hid acc [] h σ := by
  refine ⟨⟨Nat.le_refl _, fun _ _ _ => rfl⟩, extends_refl σ, hseen,
    ⟨[], by simp [hacc], List.Forall₂.nil⟩, fun a e he => Or.inl he, ?_⟩
  intro i h1 h2
  omega

theorem ceStep {H h h₁ h' : Heap} {σ σ₁ σ' : Assoc} {d : Nat} {acc : List Val}
    {v cv : Val} {vs : List Val}
    (hdlt : d < h.length) (hacc : h[d]? = some (Obj.arr acc))
    (hdc : DCPost H h σ v cv h₁ σ₁)
    (hce : CEPost H (heapPush h₁ d cv) σ₁ d (acc ++ [cv]) vs h' σ') :
    CEPost H h σ d acc (v :: vs) h' σ' := by
  obtain ⟨F1, E1, S1, R1, N1, C1⟩ := hdc
  obtain ⟨F2, E2, S2, X2, N2, C2⟩ := hce
  have hlen1 : h.length ≤ h₁.length := F1.1
  have h1d : h₁[d]? = some (Obj.arr acc) := (F1.2 d hdlt).trans hacc
  have h2len : (heapPush h₁ d cv).length = h₁.length := heapPush_length _ _ _
  have h2ne : ∀ i, i ≠ d → (heapPush h₁ d cv)[i]? = h₁[i]? :=
    fun i hi => heapPush_get_ne cv hi
  have hlen2 : (heapPush h₁ d cv).length ≤ h'.length := F2.1
  refine ⟨?_, extends_trans E1 E2, S2, ?_, ?_, ?_⟩
  · refine ⟨by omega, ?_⟩
    intro i hi hne
    rw [F2.2 i (by omega) hne, h2ne i hne, F1.2 i hi]
  · obtain ⟨cs₂, hd', hf₂⟩ := X2
    refine ⟨cv :: cs₂, ?_, List.Forall₂.cons (relVal_mono E2 R1) hf₂⟩
    simpa [List.append_assoc] using hd'
  · intro b e he
    rcases N2 b e he with h₂e | ⟨hle, hc⟩
    · rcases N1 b e h₂e with hσ | ⟨hle1, hc1⟩
      · exact Or.inl hσ
      · refine Or.inr ⟨hle1, ?_⟩
        have helt : e < h₁.length := (S1 b e h₂e).2.2
        have hene : e ≠ d := by omega
        have heq : h₁[e]? = h'[e]? := by
          rw [F2.2 e (by omega) hene, h2ne e hene]
        exact complete_mono E2 heq hc1
    · exact Or.inr ⟨by omega, hc⟩
  · intro i h1 h2
    by_cases hi : i < h₁.length
    · obtain ⟨b, hb⟩ := C1 i h1 hi
      exact ⟨b, E2 b i hb⟩
    · exact C2 i (by omega) h2

theorem cfStep {H h h₁ h' : Heap} {σ σ₁ σ' : Assoc} {d : Nat} {pr : Proto} {hid : Nat}
    {acc : List (String × Val)} {k : String} {v cv : Val} {fs : List (String × Val)}
    (hdlt : d < h.length) (hacc : h[d]? = some (Obj.obj pr acc hid))
    (hdc : DCPost H h σ v cv h₁ σ₁)
    (hcf : CFPost H (heapWrite h₁ d k cv) σ₁ d pr hid (acc ++ [(k, cv)]) fs h' σ') :
    CFPost H h σ d pr hid acc ((k, v) :: fs) h' σ' := by
  obtain ⟨F1, E1, S1, R1, N1, C1⟩ := hdc
  obtain ⟨F2, E2, S2, X2, N2, C2⟩ := hcf
  have hlen1 : h.length ≤ h₁.length := F1.1
  have h1d : h₁[d]? = some (Obj.obj pr acc hid) := (F1.2 d hdlt).trans hacc
  have h2len : (heapWrite h₁ d k cv).length = h₁.length := heapWrite_length _ _ _ _
  have h2ne : ∀ i, i ≠ d → (heapWrite h₁ d k cv)[i]? = h₁[i]? :=
    fun i hi => heapWrite_get_ne k cv hi
  have hlen2 : (heapWrite h₁ d k cv).length ≤ h'.length := F2.1
  refine ⟨?_, extends_trans E1 E2, S2, ?_, ?_, ?_⟩
  · refine ⟨by omega, ?_⟩
    intro i hi hne
    rw [F2.2 i (by omega) hne, h2ne i hne, F1.2 i hi]
  · obtain ⟨cs₂, hd', hf₂⟩ := X2
    refine ⟨(k, cv) :: cs₂, ?_, List.Forall₂.cons ⟨rfl, relVal_mono E2 R1⟩ hf₂⟩
    simpa [List.append_assoc] using hd'
  · intro b e he
    rcases N2 b e he with h₂e | ⟨hle, hc⟩
    · rcases N1 b e h₂e with hσ | ⟨hle1, hc1⟩
      · exact Or.inl hσ
      · refine Or.inr ⟨hle1, ?_⟩
        have helt : e < h₁.length := (S1 b e h₂e).2.2
        have hene : e ≠ d := by omega
        have heq : h₁[e]? = h'[e]? := by
          rw [F2.2 e (by omega) hene, h2ne e hene]
        exact complete_mono E2 heq hc1
    · exact Or.inr ⟨by omega, hc⟩
  · intro i h1 h2
    by_cases hi : i < h₁.length
    · obtain ⟨b, hb⟩ := C1 i h1 hi
      exact ⟨b, E2 b i hb⟩
    · exact C2 i (by omega) h2

/-- Specification of `deepClone` at a given fuel. -/
def DCSpecP (fuel : Nat) : Prop :=
  ∀ H h σ v v' h' σ',
    ClosedHeap H → SrcOK H h → SeenOK H h σ → ClosedVal H.length v →
    deepClone fuel h σ v = some (v', h', σ') → DCPost H h σ v v' h' σ'

/-- Specification of `cloneElems` at a given fuel. -/
def CESpecP (fuel : Nat) : Prop :=
  ∀ H h σ d acc vs h' σ',
    ClosedHeap H → SrcOK H h → SeenOK H h σ → (∀ v ∈ vs, ClosedVal H.length v) →
    H.length ≤ d → d < h.length → h[d]? = some (Obj.arr acc) →
    cloneElems fuel h σ d vs = some (h', σ') → CEPost H h σ d acc vs h' σ'

/-- Specification of `cloneFields` at a given fuel. -/
def CFSpecP (fuel : Nat) : Prop :=
  ∀ H h σ d pr hid acc fs h' σ',
    ClosedHeap H → SrcOK H h → SeenOK H h σ → (∀ kv ∈ fs, ClosedVal H.length kv.2) →
    H.length ≤ d → d < h.length → h[d]? = some (Obj.obj pr acc hid) →
    cloneFields fuel h σ d fs = some (h', σ') → CFPost H h σ d pr hid acc fs h' σ'

/-- The three clone invariants hold at every fuel (mutual induction). -/
theorem mainSpec : ∀ fuel, DCSpecP fuel ∧ CESpecP fuel ∧ CFSpecP fuel := by
  intro fuel
  induction fuel with
  | zero =>
    refine ⟨?_, ?_, ?_⟩
    · intro H h σ v v' h' σ' _ _ _ _ hrun
      simp [deepClone] at hrun
    · intro H h σ d acc vs h' σ' _ _ hseen _ _ _ hacc hrun
      cases vs with
      | nil =>
        simp [cloneElems] at hrun
        obtain ⟨rfl, rfl⟩ := hrun
        exact cePost_nil hseen hacc
      | cons v vs => simp [cloneElems] at hrun
    · intro H h σ d pr hid acc fs h' σ' _ _ hseen _ _ _ hacc hrun
      cases fs with
      | nil =>
        simp [cloneFields] at hrun
        obtain ⟨rfl, rfl⟩ := hrun
        exact cfPost_nil hseen hacc
      | cons kv fs =>
        obtain ⟨k, v⟩ := kv
        simp [cloneFields] at hrun
  | succ n ih =>
    obtain ⟨ihDC, ihCE, ihCF⟩ := ih
    refine ⟨?_, ?_, ?_⟩
    · -- deepClone at fuel n+1
      intro H h σ v v' h' σ' hcl hsrc hseen hv hrun
      cases v with
      | prim p =>
        simp [deepClone] at hrun
        obtain ⟨rfl, rfl, rfl⟩ := hrun
        exact ⟨frame_refl h, extends_refl σ, hseen, rfl, fun a e he => Or.inl he,
          fun i h1 h2 => absurd h2 (by omega)⟩
      | ref a =>
        have halt : a < H.length := hv
        have hlen : H.length ≤ h.length := hsrc.1
        cases hs : seenFind σ a with
        | some d =>
          simp [deepClone, hs] at hrun
          obtain ⟨rfl, rfl, rfl⟩ := hrun
          exact ⟨frame_refl h, extends_refl σ, hseen, ⟨d, hs, rfl⟩,
            fun b e he => Or.inl he, fun i h1 h2 => absurd h2 (by omega)⟩
        | none =>
          have hHa : ∃ o, H[a]? = some o := ⟨H[a], List.getElem?_eq_getElem halt⟩
          obtain ⟨o, ho⟩ := hHa
          have hga : h[a]? = some o := by rw [hsrc.2 a halt, ho]
          have hoH : o ∈ H := List.getElem?_mem ho
          have hocl : ClosedObj H.length o := hcl o hoH
          cases o with
          | arr elems =>
            simp only [deepClone, hs, hga] at hrun
            cases hce : cloneElems n (h ++ [Obj.arr []]) ((a, h.length) :: σ) h.length elems with
            | none => rw [hce] at hrun; simp at hrun
            | some r =>
              obtain ⟨h₁, σ₁⟩ := r
              rw [hce] at hrun
              simp only [Option.some.injEq, Prod.mk.injEq] at hrun
              obtain ⟨rfl, rfl, rfl⟩ := hrun
              have hsrc1 : SrcOK H (h ++ [Obj.arr []]) := by
                refine ⟨by simp; omega, fun i hi => ?_⟩
                rw [List.getElem?_append_left (by omega), hsrc.2 i hi]
              have hseen1 : SeenOK H (h ++ [Obj.arr []]) ((a, h.length) :: σ) := by
                intro b e he
                rw [seenFind_cons] at he
                by_cases hba : b = a
                · rw [if_pos hba] at he
                  cases he
                  exact ⟨hba ▸ halt, hlen, by simp⟩
                · rw [if_neg hba] at he
                  have := hseen b e he
                  exact ⟨this.1, this.2.1, by simp; omega⟩
              have helems : ∀ w ∈ elems, ClosedVal H.length w := fun w hw => hocl w hw
              have hd0 : (h ++ [Obj.arr []])[h.length]? = some (Obj.arr []) :=
                List.getElem?_concat_length h (Obj.arr [])
              have hpost := ihCE H (h ++ [Obj.arr []]) ((a, h.length) :: σ) h.length []
                elems h₁ σ₁ hcl hsrc1 hseen1 helems hlen (by simp) hd0 hce
              obtain ⟨F2, E2, S2, X2, N2, C2⟩ := hpost
              have hF2len : (h ++ [Obj.arr []]).length ≤ h₁.length := F2.1
              have hlen1 : (h ++ [Obj.arr []]).length = h.length + 1 := by simp
              have hsig : seenFind ((a, h.length) :: σ) a = some h.length := by
                simp [seenFind_cons]
              refine ⟨?_, extends_trans (extends_cons hs) E2, S2,
                ⟨h.length, E2 a h.length hsig, rfl⟩, ?_, ?_⟩
              · refine ⟨by omega, fun i hi => ?_⟩
                rw [F2.2 i (by omega) (by omega), List.getElem?_append_left hi]
              · intro b e he
                rcases N2 b e he with h1e | ⟨hle, hc⟩
                · rw [seenFind_cons] at h1e
                  by_cases hba : b = a
                  · rw [if_pos hba] at h1e
                    cases h1e
                    subst hba
                    refine Or.inr ⟨Nat.le_refl _, ?_⟩
                    obtain ⟨cs, hdcs, hfcs⟩ := X2
                    exact ⟨Obj.arr elems, Obj.arr cs, ho, by simpa using hdcs,
                      ⟨cs, rfl, hfcs⟩⟩
                  · rw [if_neg hba] at h1e
                    exact Or.inl h1e
                · exact Or.inr ⟨by omega, hc⟩
              · intro i h1 h2
                by_cases hieq : i = h.length
                · exact ⟨a, hieq ▸ E2 a h.length hsig⟩
                · exact C2 i (by omega) h2
          | obj pr fs hid =>
            simp only [deepClone, hs, hga] at hrun
            cases hcf : cloneFields n (h ++ [Obj.obj Proto.base [] 0]) ((a, h.length) :: σ) h.length fs with
            | none => rw [hcf] at hrun; simp at hrun
            | some r =>
              obtain ⟨h₁, σ₁⟩ := r
              rw [hcf] at hrun
              simp only [Option.some.injEq, Prod.mk.injEq] at hrun
              obtain ⟨rfl, rfl, rfl⟩ := hrun
              have hsrc1 : SrcOK H (h ++ [Obj.obj Proto.base [] 0]) := by
                refine ⟨by simp; omega, fun i hi => ?_⟩
                rw [List.getElem?_append_left (by omega), hsrc.2 i hi]
              have hseen1 : SeenOK H (h ++ [Obj.obj Proto.base [] 0]) ((a, h.length) :: σ) := by
                intro b e he
                rw [seenFind_cons] at he
                by_cases hba : b = a
                · rw [if_pos hba] at he
                  cases he
                  exact ⟨hba ▸ halt, hlen, by simp⟩
                · rw [if_neg hba] at he
                  have := hseen b e he
                  exact ⟨this.1, this.2.1, by simp; omega⟩
              have hfs : ∀ kv ∈ fs, ClosedVal H.length kv.2 := by
                intro kv hkv
                exact hocl kv.2 (List.mem_map_of_mem _ hkv)
              have hd0 : (h ++ [Obj.obj Proto.base [] 0])[h.length]? = some (Obj.obj Proto.base [] 0) :=
                List.getElem?_concat_length h (Obj.obj Proto.base [] 0)
              have hpost := ihCF H (h ++ [Obj.obj Proto.base [] 0]) ((a, h.length) :: σ) h.length
                Proto.base 0 [] fs h₁ σ₁ hcl hsrc1 hseen1 hfs hlen (by simp) hd0 hcf
              obtain ⟨F2, E2, S2, X2, N2, C2⟩ := hpost
              have hF2len : (h ++ [Obj.obj Proto.base [] 0]).length ≤ h₁.length := F2.1
              have hlen1 : (h ++ [Obj.obj Proto.base [] 0]).length = h.length + 1 := by simp
              have hsig : seenFind ((a, h.length) :: σ) a = some h.length := by
                simp [seenFind_cons]
              refine ⟨?_, extends_trans (extends_cons hs) E2, S2,
                ⟨h.length, E2 a h.length hsig, rfl⟩, ?_, ?_⟩
              · refine ⟨by omega, fun i hi => ?_⟩
                rw [F2.2 i (by omega) (by omega), List.getElem?_append_left hi]
              · intro b e he
                rcases N2 b e he with h1e | ⟨hle, hc⟩
                · rw [seenFind_cons] at h1e
                  by_cases hba : b = a
                  · rw [if_pos hba] at h1e
                    cases h1e
                    subst hba
                    refine Or.inr ⟨Nat.le_refl _, ?_⟩
                    obtain ⟨cs, hdcs, hfcs⟩ := X2
                    exact ⟨Obj.obj pr fs hid, Obj.obj Proto.base cs 0, ho,
                      by simpa using hdcs, ⟨cs, rfl, hfcs⟩⟩
                  · rw [if_neg hba] at h1e
                    exact Or.inl h1e
                · exact Or.inr ⟨by omega, hc⟩
              · intro i h1 h2
                by_cases hieq : i = h.length
                · exact ⟨a, hieq ▸ E2 a h.length hsig⟩
                · exact C2 i (by omega) h2
    · -- cloneElems at fuel n+1
      intro H h σ d acc vs h' σ' hcl hsrc hseen hvs hdlo hdlt hacc hrun
      cases vs with
      | nil =>
        simp [cloneElems] at hrun
        obtain ⟨rfl, rfl⟩ := hrun
        exact cePost_nil hseen hacc
      | cons v vs =>
        simp only [cloneElems] at hrun
        cases hdc : deepClone n h σ v with
        | none => rw [hdc] at hrun; simp at hrun
        | some r =>
          obtain ⟨cv, h₁, σ₁⟩ := r
          rw [hdc] at hrun
          simp only [] at hrun
          have hdcp := ihDC H h σ v cv h₁ σ₁ hcl hsrc hseen (hvs v (by simp)) hdc
          obtain ⟨F1, E1, S1, R1, N1, C1⟩ := hdcp
          have hlen1 : h.length ≤ h₁.length := F1.1
          have h1d : h₁[d]? = some (Obj.arr acc) := (F1.2 d hdlt).trans hacc
          have h2d : (heapPush h₁ d cv)[d]? = some (Obj.arr (acc ++ [cv])) :=
            heapPush_get_self cv h1d
          have h2len : (heapPush h₁ d cv).length = h₁.length := heapPush_length _ _ _
          have hsrc1 : SrcOK H h₁ := srcOK_of_frame hsrc F1
          have hsrc2 : SrcOK H (heapPush h₁ d cv) := by
            refine ⟨by omega, fun i hi => ?_⟩
            rw [heapPush_get_ne cv (by omega), hsrc1.2 i hi]
          have hseen2 : SeenOK H (heapPush h₁ d cv) σ₁ := by
            intro b e he
            have := S1 b e he
            exact ⟨this.1, this.2.1, by omega⟩
          have hce := ihCE H (heapPush h₁ d cv) σ₁ d (acc ++ [cv]) vs h' σ' hcl hsrc2 hseen2
            (fun w hw => hvs w (by simp [hw])) hdlo (by omega) h2d hrun
          exact ceStep hdlt hacc ⟨F1, E1, S1, R1, N1, C1⟩ hce
    · -- cloneFields at fuel n+1
      intro H h σ d pr hid acc fs h' σ' hcl hsrc hseen hfs hdlo hdlt hacc hrun
      cases fs with
      | nil =>
        simp [cloneFields] at hrun
        obtain ⟨rfl, rfl⟩ := hrun
        exact cfPost_nil hseen hacc
      | cons kv fs =>
        obtain ⟨k, v⟩ := kv
        simp only [cloneFields] at hrun
        cases hdc : deepClone n h σ v with
        | none => rw [hdc] at hrun; simp at hrun
        | some r =>
          obtain ⟨cv, h₁, σ₁⟩ := r
          rw [hdc] at hrun
          simp only [] at hrun
          have hdcp := ihDC H h σ v cv h₁ σ₁ hcl hsrc hseen (hfs (k, v) (by simp)) hdc
          obtain ⟨F1, E1, S1, R1, N1, C1⟩ := hdcp
          have hlen1 : h.length ≤ h₁.length := F1.1
          have h1d : h₁[d]? = some (Obj.obj pr acc hid) := (F1.2 d hdlt).trans hacc
          have h2d : (heapWrite h₁ d k cv)[d]? = some (Obj.obj pr (acc ++ [(k, cv)]) hid) :=
            heapWrite_get_self k cv h1d
          have h2len : (heapWrite h₁ d k cv).length = h₁.length := heapWrite_length _ _ _ _
          have hsrc1 : SrcOK H h₁ := srcOK_of_frame hsrc F1
          have hsrc2 : SrcOK H (heapWrite h₁ d k cv) := by
            refine ⟨by omega, fun i hi => ?_⟩
            rw [heapWrite_get_ne k cv (by omega), hsrc1.2 i hi]
          have hseen2 : SeenOK H (heapWrite h₁ d k cv) σ₁ := by
            intro b e he
            have := S1 b e he
            exact ⟨this.1, this.2.1, by omega⟩
          have hcf := ihCF H (heapWrite h₁ d k cv) σ₁ d pr hid (acc ++ [(k, cv)]) fs h' σ'
            hcl hsrc2 hseen2 (fun w hw => hfs w (by simp [hw])) hdlo (by omega) h2d hrun
          exact cfStep hdlt hacc ⟨F1, E1, S1, R1, N1, C1⟩ hcf

/- ### A computable sufficient fuel bound: the clone terminates -/

/-- The largest child count of any node in the heap. -/
def maxKids (H : Heap) : Nat := H.foldr (fun o m => max (objVals o).length m) 0

theorem le_maxKids : ∀ {H : Heap} {o : Obj}, o ∈ H → (objVals o).length ≤ maxKids H := by
  intro H
  induction H with
  | nil => intro o h; cases h
  | cons x xs ih =>
    intro o h
    rcases List.mem_cons.mp h with rfl | h
    · exact Nat.le_max_left _ _
    · exact Nat.le_trans (ih h) (Nat.le_max_right _ _)

/-- How many source addresses the visited map has not yet registered. -/
def freeCnt (H : Heap) (σ : Assoc) : Nat :=
  (List.range H.length).countP (fun a => (seenFind σ a).isNone)

theorem freeCnt_le (H : Heap) (σ : Assoc) : freeCnt H σ ≤ H.length := by
  have h := List.countP_le_length (p := fun a => (seenFind σ a).isNone)
    (l := List.range H.length)
  simpa using h

theorem freeCnt_mono {H : Heap} {σ σ' : Assoc} (hext : Extends σ σ') :
    freeCnt H σ' ≤ freeCnt H σ := by
  apply List.countP_mono_left
  intro a _ ha
  cases hx : seenFind σ a with
  | none => simp
  | some d =>
    rw [hext a d hx] at ha
    simp at ha

theorem countP_lt_of_flip {α : Type} {p q : α → Bool} :
    ∀ {l : List α}, (∀ x ∈ l, q x → p x) → ∀ {a}, a ∈ l → p a → q a = false →
      l.countP q < l.countP p := by
  intro l
  induction l with
  | nil => intro _ a ha; cases ha
  | cons x xs ih =>
    intro himp a ha hpa hqa
    rw [List.countP_cons, List.countP_cons]
    have himp' : ∀ y ∈ xs, q y → p y := fun y hy => himp y (List.mem_cons_of_mem _ hy)
    rcases List.mem_cons.mp ha with rfl | ha'
    · have hmono : xs.countP q ≤ xs.countP p := List.countP_mono_left himp'
      rw [if_neg (by simp [hqa]), if_pos hpa]
      omega
    · have ih' := ih himp' ha' hpa hqa
      by_cases hq : q x = true
      · have hp := himp x (List.mem_cons_self x xs) hq
        rw [if_pos hq, if_pos hp]
        omega
      · rw [if_neg hq]
        have hle : (if p x = true then 1 else 0) ≤ 1 := by split <;> omega
        omega

theorem freeCnt_cons_lt {H : Heap} {σ : Assoc} {a d : Nat} (ha : a < H.length)
    (hn : seenFind σ a = none) : freeCnt H ((a, d) :: σ) < freeCnt H σ := by
  apply countP_lt_of_flip
  · intro b _ hb
    rw [seenFind_cons] at hb
    by_cases hba : b = a
    · rw [if_pos hba] at hb; simp at hb
    · rw [if_neg hba] at hb; exact hb
  · exact List.mem_range.mpr ha
  · simp [hn]
  · simp [seenFind_cons]

/-- Fuel sufficiency for `deepClone`. -/
def DCTermP (fuel : Nat) : Prop :=
  ∀ H h σ v, ClosedHeap H → SrcOK H h → SeenOK H h σ → ClosedVal H.length v →
    freeCnt H σ * (maxKids H + 1) + 1 ≤ fuel → (deepClone fuel h σ v).isSome

/-- Fuel sufficiency for `cloneElems`. -/
def CETermP (fuel : Nat) : Prop :=
  ∀ H h σ d vs, ClosedHeap H → SrcOK H h → SeenOK H h σ →
    (∀ v ∈ vs, ClosedVal H.length v) → H.length ≤ d → vs.length ≤ maxKids H →
    freeCnt H σ * (maxKids H + 1) + vs.length + 1 ≤ fuel →
    (cloneElems fuel h σ d vs).isSome

/-- Fuel sufficiency for `cloneFields`. -/
def CFTermP (fuel : Nat) : Prop :=
  ∀ H h σ d fs, ClosedHeap H → SrcOK H h → SeenOK H h σ →
    (∀ kv ∈ fs, ClosedVal H.length kv.2) → H.length ≤ d → fs.length ≤ maxKids H →
    freeCnt H σ * (maxKids H + 1) + fs.length + 1 ≤ fuel →
    (cloneFields fuel h σ d fs).isSome

/-- With enough fuel the clone and both loops return a value (mutual
induction on the fuel): this is the termination argument — each cache
miss permanently shrinks the set of unregistered source nodes. -/
theorem mainTerm : ∀ fuel, DCTermP fuel ∧ CETermP fuel ∧ CFTermP fuel := by
  intro fuel
  induction fuel with
  | zero =>
    refine ⟨?_, ?_, ?_⟩
    · intro H h σ v _ _ _ _ hfuel; omega
    · intro H h σ d vs _ _ _ _ _ _ hfuel; omega
    · intro H h σ d fs _ _ _ _ _ _ hfuel; omega
  | succ n ih =>
    obtain ⟨ihDC, ihCE, ihCF⟩ := ih
    refine ⟨?_, ?_, ?_⟩
    · intro H h σ v hcl hsrc hseen hv hfuel
      cases v with
      | prim p => simp [deepClone]
      | ref a =>
        have halt : a < H.length := hv
        have hlen : H.length ≤ h.length := hsrc.1
        cases hs : seenFind σ a with
        | some d => simp [deepClone, hs]
        | none =>
          obtain ⟨o, ho⟩ : ∃ o, H[a]? = some o := ⟨H[a], List.getElem?_eq_getElem halt⟩
          have hga : h[a]? = some o := by rw [hsrc.2 a halt, ho]
          have hoH : o ∈ H := List.getElem?_mem ho
          have hocl : ClosedObj H.length o := hcl o hoH
          have hkids : (objVals o).length ≤ maxKids H := le_maxKids hoH
          have hstep : freeCnt H ((a, h.length) :: σ) + 1 ≤ freeCnt H σ :=
            freeCnt_cons_lt halt hs
          have hmul : (freeCnt H ((a, h.length) :: σ) + 1) * (maxKids H + 1) ≤
              freeCnt H σ * (maxKids H + 1) := Nat.mul_le_mul_right _ hstep
          rw [Nat.succ_mul] at hmul
          cases o with
          | arr elems =>
            have hsrc1 : SrcOK H (h ++ [Obj.arr []]) := by
              refine ⟨by simp; omega, fun i hi => ?_⟩
              rw [List.getElem?_append_left (by omega), hsrc.2 i hi]
            have hseen1 : SeenOK H (h ++ [Obj.arr []]) ((a, h.length) :: σ) := by
              intro b e he
              rw [seenFind_cons] at he
              by_cases hba : b = a
              · rw [if_pos hba] at he
                cases he
                exact ⟨hba ▸ halt, hlen, by simp⟩
              · rw [if_neg hba] at he
                have := hseen b e he
                exact ⟨this.1, this.2.1, by simp; omega⟩
            have hkids' : elems.length ≤ maxKids H := by simpa [objVals] using hkids
            have hb : freeCnt H ((a, h.length) :: σ) * (maxKids H + 1) + elems.length + 1 ≤ n := by
              omega
            have hsome := ihCE H (h ++ [Obj.arr []]) ((a, h.length) :: σ) h.length elems
              hcl hsrc1 hseen1 (fun w hw => hocl w hw) hlen hkids' hb
            obtain ⟨r, hr⟩ := Option.isSome_iff_exists.mp hsome
            obtain ⟨h₁, σ₁⟩ := r
            simp only [deepClone, hs, hga]
            rw [hr]
            simp
          | obj pr fs hid =>
            have hsrc1 : SrcOK H (h ++ [Obj.obj Proto.base [] 0]) := by
              refine ⟨by simp; omega, fun i hi => ?_⟩
              rw [List.getElem?_append_left (by omega), hsrc.2 i hi]
            have hseen1 : SeenOK H (h ++ [Obj.obj Proto.base [] 0]) ((a, h.length) :: σ) := by
              intro b e he
              rw [seenFind_cons] at he
              by_cases hba : b = a
              · rw [if_pos hba] at he
                cases he
                exact ⟨hba ▸ halt, hlen, by simp⟩
              · rw [if_neg hba] at he
                have := hseen b e he
                exact ⟨this.1, this.2.1, by simp; omega⟩
            have hkids' : fs.length ≤ maxKids H := by
              have : (objVals (Obj.obj pr fs hid)).length = fs.length := by
                simp [objVals]
              omega
            have hfscl : ∀ kv ∈ fs, ClosedVal H.length kv.2 := fun kv hkv =>
              hocl kv.2 (List.mem_map_of_mem _ hkv)
            have hb : freeCnt H ((a, h.length) :: σ) * (maxKids H + 1) + fs.length + 1 ≤ n := by
              omega
            have hsome := ihCF H (h ++ [Obj.obj Proto.base [] 0]) ((a, h.length) :: σ) h.length fs
              hcl hsrc1 hseen1 hfscl hlen hkids' hb
            obtain ⟨r, hr⟩ := Option.isSome_iff_exists.mp hsome
            obtain ⟨h₁, σ₁⟩ := r
            simp only [deepClone, hs, hga]
            rw [hr]
            simp
    · intro H h σ d vs hcl hsrc hseen hvs hdlo hkids hfuel
      cases vs with
      | nil => simp [cloneElems]
      | cons v vs =>
        simp only [List.length_cons] at hfuel hkids
        have hb1 : freeCnt H σ * (maxKids H + 1) + 1 ≤ n := by omega
        have hsome := ihDC H h σ v hcl hsrc hseen (hvs v (by simp)) hb1
        obtain ⟨r, hr⟩ := Option.isSome_iff_exists.mp hsome
        obtain ⟨cv, h₁, σ₁⟩ := r
        have hdcp := (mainSpec n).1 H h σ v cv h₁ σ₁ hcl hsrc hseen (hvs v (by simp)) hr
        obtain ⟨F1, E1, S1, R1, N1, C1⟩ := hdcp
        have h2len : (heapPush h₁ d cv).length = h₁.length := heapPush_length _ _ _
        have hsrc1 : SrcOK H h₁ := srcOK_of_frame hsrc F1
        have hlen1 : H.length ≤ h₁.length := hsrc1.1
        have hsrc2 : SrcOK H (heapPush h₁ d cv) := by
          refine ⟨by omega, fun i hi => ?_⟩
          rw [heapPush_get_ne cv (by omega), hsrc1.2 i hi]
        have hseen2 : SeenOK H (heapPush h₁ d cv) σ₁ := by
          intro b e he
          have := S1 b e he
          exact ⟨this.1, this.2.1, by omega⟩
        have hmono : freeCnt H σ₁ ≤ freeCnt H σ := freeCnt_mono E1
        have hmul : freeCnt H σ₁ * (maxKids H + 1) ≤ freeCnt H σ * (maxKids H + 1) :=
          Nat.mul_le_mul_right _ hmono
        have hb2 : freeCnt H σ₁ * (maxKids H + 1) + vs.length + 1 ≤ n := by
          omega
        have htail := ihCE H (heapPush h₁ d cv) σ₁ d vs hcl hsrc2 hseen2
          (fun w hw => hvs w (by simp [hw])) hdlo (by omega) hb2
        simp only [cloneElems]
        rw [hr]
        exact htail
    · intro H h σ d fs hcl hsrc hseen hfs hdlo hkids hfuel
      cases fs with
      | nil => simp [cloneFields]
      | cons kv fs =>
        obtain ⟨k, v⟩ := kv
        simp only [List.length_cons] at hfuel hkids
        have hb1 : freeCnt H σ * (maxKids H + 1) + 1 ≤ n := by omega
        have hsome := ihDC H h σ v hcl hsrc hseen (hfs (k, v) (by simp)) hb1
        obtain ⟨r, hr⟩ := Option.isSome_iff_exists.mp hsome
        obtain ⟨cv, h₁, σ₁⟩ := r
        have hdcp := (mainSpec n).1 H h σ v cv h₁ σ₁ hcl hsrc hseen (hfs (k, v) (by simp)) hr
        obtain ⟨F1, E1, S1, R1, N1, C1⟩ := hdcp
        have h2len : (heapWrite h₁ d k cv).length = h₁.length := heapWrite_length _ _ _ _
        have hsrc1 : SrcOK H h₁ := srcOK_of_frame hsrc F1
        have hlen1 : H.length ≤ h₁.length := hsrc1.1
        have hsrc2 : SrcOK H (heapWrite h₁ d k cv) := by
          refine ⟨by omega, fun i hi => ?_⟩
          rw [heapWrite_get_ne k cv (by omega), hsrc1.2 i hi]
        have hseen2 : SeenOK H (heapWrite h₁ d k cv) σ₁ := by
          intro b e he
          have := S1 b e he
          exact ⟨this.1, this.2.1, by omega⟩
        have hmono : freeCnt H σ₁ ≤ freeCnt H σ := freeCnt_mono E1
        have hmul : freeCnt H σ₁ * (maxKids H + 1) ≤ freeCnt H σ * (maxKids H + 1) :=
          Nat.mul_le_mul_right _ hmono
        have hb2 : freeCnt H σ₁ * (maxKids H + 1) + fs.length + 1 ≤ n := by
          omega
        have htail := ihCF H (heapWrite h₁ d k cv) σ₁ d fs hcl hsrc2 hseen2
          (fun w hw => hfs w (by simp [hw])) hdlo (by omega) hb2
        simp only [cloneFields]
        rw [hr]
        exact htail

/-- A fuel budget that is always sufficient, computed from the heap. -/
def enoughFuel (H : Heap) : Nat := H.length * (maxKids H + 1) + 1

/- ### Top-level corollaries (the visited map starts empty) -/

/-- Unpacking the entry point. -/
theorem cloneTop_some {fuel : Nat} {H : Heap} {v v' : Val} {h' : Heap}
    (h : cloneTop fuel H v = some (v', h')) :
    ∃ σ', deepClone fuel H [] v = some (v', h', σ') := by
  unfold cloneTop at h
  cases hd : deepClone fuel H [] v with
  | none => rw [hd] at h; cases h
  | some r =>
    obtain ⟨w, hh, σ⟩ := r
    rw [hd] at h
    simp only [Option.some.injEq, Prod.mk.injEq] at h
    obtain ⟨rfl, rfl⟩ := h
    exact ⟨σ, rfl⟩

/-- Everything a successful top-level clone call guarantees. -/
theorem topSpec {H h' : Heap} {σ' : Assoc} {v v' : Val} {fuel : Nat}
    (hcl : ClosedHeap H) (hv : ClosedVal H.length v)
    (hrun : deepClone fuel H [] v = some (v', h', σ')) :
    Frame H h' ∧ RelVal σ' v v' ∧ SeenOK H h' σ' ∧ AllComplete H h' σ' ∧
      Covered H h' σ' := by
  have hspec := (mainSpec fuel).1 H H [] v v' h' σ' hcl (srcOK_refl H)
    (by intro a d hd; simp [seenFind] at hd) hv hrun
  obtain ⟨F, E, S, R, N, C⟩ := hspec
  refine ⟨F, R, S, ?_, C⟩
  intro a d hd
  rcases N a d hd with h0 | ⟨_, hc⟩
  · simp [seenFind] at h0
  · exact hc

theorem closedVal_mono {n m : Nat} {v : Val} (h : ClosedVal n v) (hnm : n ≤ m) :
    ClosedVal m v := by
  cases v with
  | prim p => trivial
  | ref a => exact Nat.lt_of_lt_of_le h hnm

theorem relVal_closed {H h' : Heap} {σ' : Assoc} (S : SeenOK H h' σ') {x w : Val}
    (hr : RelVal σ' x w) : ClosedVal h'.length w := by
  cases x with
  | prim p => rw [hr]; trivial
  | ref b =>
    obtain ⟨e, he, rfl⟩ := hr
    exact (S b e he).2.2

theorem relObj_closed {H h' : Heap} {σ' : Assoc} (S : SeenOK H h' σ') {o o' : Obj}
    (hr : RelObj σ' o o') : ClosedObj h'.length o' := by
  cases o with
  | arr l =>
    obtain ⟨l', rfl, hf⟩ := hr
    intro w hw
    simp only [objVals] at hw
    obtain ⟨x, _, hxw⟩ := forall₂_mem_right hf w hw
    exact relVal_closed S hxw
  | obj pr fs hid =>
    obtain ⟨fs', rfl, hf⟩ := hr
    intro w hw
    simp only [objVals] at hw
    obtain ⟨kv', hkv', rfl⟩ := List.mem_map.mp hw
    obtain ⟨kv, _, hrel⟩ := forall₂_mem_right hf kv' hkv'
    exact relVal_closed S hrel.2

/-- The heap after a top-level clone is closed again, and so is the
returned value — so the output is itself a well-formed graph that can be
cloned once more. -/
theorem topClosed {H h' : Heap} {σ' : Assoc} {v v' : Val} {fuel : Nat}
    (hcl : ClosedHeap H) (hv : ClosedVal H.length v)
    (hrun : deepClone fuel H [] v = some (v', h', σ')) :
    ClosedHeap h' ∧ ClosedVal h'.length v' := by
  obtain ⟨F, R, S, A, C⟩ := topSpec hcl hv hrun
  constructor
  · intro o ho
    obtain ⟨i, hi⟩ := List.mem_iff_getElem?.mp ho
    by_cases hiH : i < H.length
    · have hIo : H[i]? = some o := by rw [← F.2 i hiH, hi]
      have : o ∈ H := List.getElem?_mem hIo
      intro w hw
      exact closedVal_mono (hcl o this w hw) F.1
    · have hilt : i < h'.length := (List.getElem?_eq_some_iff.mp hi).1
      obtain ⟨a, ha⟩ := C i (by omega) hilt
      obtain ⟨o₀, o'', _, ho'', hrel⟩ := A a i ha
      rw [hi] at ho''
      cases ho''
      exact relObj_closed S hrel
  · cases v with
    | prim p => rw [R]; trivial
    | ref a =>
      obtain ⟨d, hd, rfl⟩ := R
      exact (S a d hd).2.2

/- ### Reachability in a heap -/

/-- `Reaches h v b`: starting from value `v`, address `b` is reachable
through the containers of heap `h` (these are exactly the composite
nodes the clone traverses). -/
inductive Reaches (h : Heap) : Val → Nat → Prop where
  | here (a : Nat) : Reaches h (Val.ref a) a
  | step {v : Val} {a b : Nat} {o : Obj} :
      Reaches h v a → h[a]? = some o → Val.ref b ∈ objVals o → Reaches h v b

/-- In a closed heap every reachable address is a valid address. -/
theorem reaches_lt {H : Heap} {v : Val} (hcl : ClosedHeap H) (hv : ClosedVal H.length v) :
    ∀ {b : Nat}, Reaches H v b → b < H.length := by
  intro b hreach
  induction hreach with
  | here a => exact hv
  | step hr ho hb ih => exact hcl _ (List.getElem?_mem ho) _ hb

/-- Every address reachable from a fully recorded clone is itself a
clone address recorded in the visited map. -/
theorem reach_dest {H h' : Heap} {σ' : Assoc} (A : AllComplete H h' σ') :
    ∀ {w : Val} {b : Nat}, Reaches h' w b →
      (∀ e, w = Val.ref e → ∃ a, seenFind σ' a = some e) →
      ∃ a, seenFind σ' a = some b := by
  intro w b hreach hbase
  induction hreach with
  | here e => exact hbase e rfl
  | step hr ho hb ih =>
    obtain ⟨c, hc⟩ := ih hbase
    obtain ⟨o₀, o'', ho₀, ho'', hrel⟩ := A c _ hc
    rw [ho] at ho''
    cases ho''
    cases o₀ with
    | arr l =>
      obtain ⟨l', heq, hf⟩ := hrel
      cases heq
      simp only [objVals] at hb
      obtain ⟨x, _, hxr⟩ := forall₂_mem_right hf _ hb
      cases x with
      | prim p => cases hxr
      | ref s =>
        obtain ⟨e, he, heq2⟩ := hxr
        cases heq2
        exact ⟨s, he⟩
    | obj pr fs hid =>
      obtain ⟨fs', heq, hf⟩ := hrel
      cases heq
      simp only [objVals] at hb
      obtain ⟨kv', hkv', hkv2⟩ := List.mem_map.mp hb
      obtain ⟨kv, _, hrel2⟩ := forall₂_mem_right hf kv' hkv'
      have hxr := hrel2.2
      rw [hkv2] at hxr
      cases hkx : kv.2 with
      | prim p => rw [hkx] at hxr; cases hxr
      | ref s =>
        rw [hkx] at hxr
        obtain ⟨e, he, heq2⟩ := hxr
        cases heq2
        exact ⟨s, he⟩

/-- Every source node reachable from the cloned root is registered in
the final visited map. -/
theorem reach_src_seen {H h' : Heap} {σ' : Assoc} {v v' : Val}
    (A : AllComplete H h' σ') (R : RelVal σ' v v') :
    ∀ {b : Nat}, Reaches H v b → ∃ e, seenFind σ' b = some e := by
  intro b hreach
  induction hreach with
  | here a =>
    obtain ⟨d, hd, _⟩ := R
    exact ⟨d, hd⟩
  | @step _ a b o hr ho hb ih =>
    obtain ⟨e, he⟩ := ih R
    obtain ⟨o₀, o'', ho₀, ho'', hrel⟩ := A _ e he
    rw [ho] at ho₀
    cases ho₀
    cases o with
    | arr l =>
      obtain ⟨l', heq, hf⟩ := hrel
      simp only [objVals] at hb
      obtain ⟨y, _, hry⟩ := forall₂_mem_left hf _ hb
      obtain ⟨e', he', _⟩ := hry
      exact ⟨e', he'⟩
    | obj pr fs hid =>
      obtain ⟨fs', heq, hf⟩ := hrel
      simp only [objVals] at hb
      obtain ⟨kv, hkv, hkv2⟩ := List.mem_map.mp hb
      obtain ⟨kv', _, hrel2⟩ := forall₂_mem_left hf kv hkv
      have hxr := hrel2.2
      rw [hkv2] at hxr
      obtain ⟨e', he', _⟩ := hxr
      exact ⟨e', he'⟩

/- ### Structural comparison: finite tree unfoldings -/

/-- The pure shape of a value graph: container kinds, keys, element
order and primitive leaves — exactly what structural deep-equality
compares; references are dereferenced away. -/
inductive Tree where
  | prim : Prim → Tree
  | arr : List Tree → Tree
  | obj : List (String × Tree) → Tree

mutual

/-- Unfold a value into its finite tree, with fuel; this succeeds for
some fuel exactly when the reachable part of the graph is acyclic. -/
def toTree : Nat → Heap → Val → Option Tree
  | _, _, Val.prim p => some (Tree.prim p)
  | 0, _, Val.ref _ => none
  | n + 1, h, Val.ref a =>
    match h[a]? with
    | none => none
    | some (Obj.arr l) =>
      match toTreeList n h l with
      | none => none
      | some ts => some (Tree.arr ts)
    | some (Obj.obj _ fs _) =>
      match toTreeFields n h fs with
      | none => none
      | some ts => some (Tree.obj ts)

def toTreeList : Nat → Heap → List Val → Option (List Tree)
  | _, _, [] => some []
  | 0, _, _ :: _ => none
  | n + 1, h, v :: vs =>
    match toTree n h v with
    | none => none
    | some t =>
      match toTreeList n h vs with
      | none => none
      | some ts => some (t :: ts)

def toTreeFields : Nat → Heap → List (String × Val) → Option (List (String × Tree))
  | _, _, [] => some []
  | 0, _, _ :: _ => none
  | n + 1, h, (k, v) :: fs =>
    match toTree n h v with
    | none => none
    | some t =>
      match toTreeFields n h fs with
      | none => none
      | some ts => some ((k, t) :: ts)

end

/-- The depth-cut shape of a value graph: like `Tree` but total — a
reference not unfolded within the fuel becomes `cut`, a dangling
reference `dead`.  Two values are structurally deep-equal when all of
their depth-cuts agree. -/
inductive CTree where
  | cut : CTree
  | dead : CTree
  | prim : Prim → CTree
  | arr : List CTree → CTree
  | obj : List (String × CTree) → CTree

mutual

def cutTree : Nat → Heap → Val → CTree
  | _, _, Val.prim p => CTree.prim p
  | 0, _, Val.ref _ => CTree.cut
  | n + 1, h, Val.ref a =>
    match h[a]? with
    | none => CTree.dead
    | some (Obj.arr l) => CTree.arr (cutList n h l)
    | some (Obj.obj _ fs _) => CTree.obj (cutFields n h fs)

def cutList : Nat → Heap → List Val → List CTree
  | _, _, [] => []
  | 0, _, _ :: _ => []
  | n + 1, h, v :: vs => cutTree n h v :: cutList n h vs

def cutFields : Nat → Heap → List (String × Val) → List (String × CTree)
  | _, _, [] => []
  | 0, _, _ :: _ => []
  | n + 1, h, (k, v) :: fs => (k, cutTree n h v) :: cutFields n h fs

end

/-- Structural deep-equality of two rooted graphs: every depth-cut
unfolding agrees (same container kinds, same keys, same element order,
same primitive leaves; cyclic graphs compare equal when they unroll
equally at every depth). -/
def DeepEq (h₁ : Heap) (v₁ : Val) (h₂ : Heap) (v₂ : Val) : Prop :=
  ∀ n, cutTree n h₁ v₁ = cutTree n h₂ v₂

/- ### Simulation: a fully recorded clone unfolds like its source -/

def TSimV (n : Nat) : Prop :=
  ∀ H h' σ', AllComplete H h' σ' → ∀ v v', RelVal σ' v v' →
    ∀ t, toTree n H v = some t → toTree n h' v' = some t

def TSimL (n : Nat) : Prop :=
  ∀ H h' σ', AllComplete H h' σ' → ∀ l l', List.Forall₂ (RelVal σ') l l' →
    ∀ ts, toTreeList n H l = some ts → toTreeList n h' l' = some ts

def TSimF (n : Nat) : Prop :=
  ∀ H h' σ', AllComplete H h' σ' → ∀ fs fs', RelFields σ' fs fs' →
    ∀ ts, toTreeFields n H fs = some ts → toTreeFields n h' fs' = some ts

theorem treeSim : ∀ n, TSimV n ∧ TSimL n ∧ TSimF n := by
  intro n
  induction n with
  | zero =>
    refine ⟨?_, ?_, ?_⟩
    · intro H h' σ' A v v' R t ht
      cases v with
      | prim p =>
        rw [R]
        simp only [toTree] at ht ⊢
        exact ht
      | ref a => simp [toTree] at ht
    · intro H h' σ' A l l' R ts ht
      cases R with
      | nil => simpa [toTreeList] using ht
      | cons hx hrest => simp [toTreeList] at ht
    · intro H h' σ' A fs fs' R ts ht
      cases R with
      | nil => simpa [toTreeFields] using ht
      | cons hx hrest =>
        rename_i x y xs ys
        obtain ⟨k, v⟩ := x
        simp [toTreeFields] at ht
  | succ n ihn =>
    obtain ⟨ihV, ihL, ihF⟩ := ihn
    refine ⟨?_, ?_, ?_⟩
    · intro H h' σ' A v v' R t ht
      cases v with
      | prim p =>
        rw [R]
        simp only [toTree] at ht ⊢
        exact ht
      | ref a =>
        obtain ⟨d, hd, rfl⟩ := R
        obtain ⟨o₀, o'', ho₀, ho'', hrel⟩ := A a d hd
        cases o₀ with
        | arr l =>
          obtain ⟨l', heq, hf⟩ := hrel
          cases heq
          simp only [toTree, ho₀] at ht
          cases hts : toTreeList n H l with
          | none => rw [hts] at ht; cases ht
          | some ts0 =>
            rw [hts] at ht
            simp only [Option.some.injEq] at ht
            subst ht
            have hsim := ihL H h' σ' A l l' hf ts0 hts
            simp only [toTree, ho'', hsim]
        | obj pr fs hid =>
          obtain ⟨fs', heq, hf⟩ := hrel
          cases heq
          simp only [toTree, ho₀] at ht
          cases hts : toTreeFields n H fs with
          | none => rw [hts] at ht; cases ht
          | some ts0 =>
            rw [hts] at ht
            simp only [Option.some.injEq] at ht
            subst ht
            have hsim := ihF H h' σ' A fs fs' hf ts0 hts
            simp only [toTree, ho'', hsim]
    · intro H h' σ' A l l' R ts ht
      cases R with
      | nil => simpa [toTreeList] using ht
      | cons hx hrest =>
        rename_i x y xs ys
        simp only [toTreeList] at ht ⊢
        cases h1 : toTree n H x with
        | none => rw [h1] at ht; cases ht
        | some t1 =>
          rw [h1] at ht
          cases h2 : toTreeList n H xs with
          | none => rw [h2] at ht; cases ht
          | some ts1 =>
            rw [h2] at ht
            simp only [Option.some.injEq] at ht
            subst ht
            rw [ihV H h' σ' A x y hx t1 h1, ihL H h' σ' A xs ys hrest ts1 h2]
    · intro H h' σ' A fs fs' R ts ht
      cases R with
      | nil => simpa [toTreeFields] using ht
      | cons hx hrest =>
        rename_i x y xs ys
        obtain ⟨k, v⟩ := x
        obtain ⟨k2, v2⟩ := y
        obtain ⟨hk, hv⟩ := hx
        cases hk
        simp only [toTreeFields] at ht ⊢
        cases h1 : toTree n H v with
        | none => rw [h1] at ht; cases ht
        | some t1 =>
          rw [h1] at ht
          cases h2 : toTreeFields n H xs with
          | none => rw [h2] at ht; cases ht
          | some ts1 =>
            rw [h2] at ht
            simp only [Option.some.injEq] at ht
            subst ht
            rw [ihV H h' σ' A v v2 hv t1 h1, ihF H h' σ' A xs ys hrest ts1 h2]

def CSimV (n : Nat) : Prop :=
  ∀ H h' σ', AllComplete H h' σ' → ∀ v v', RelVal σ' v v' →
    cutTree n H v = cutTree n h' v'

def CSimL (n : Nat) : Prop :=
  ∀ H h' σ', AllComplete H h' σ' → ∀ l l', List.Forall₂ (RelVal σ') l l' →
    cutList n H l = cutList n h' l'

def CSimF (n : Nat) : Prop :=
  ∀ H h' σ', AllComplete H h' σ' → ∀ fs fs', RelFields σ' fs fs' →
    cutFields n H fs = cutFields n h' fs'

theorem cutSim : ∀ n, CSimV n ∧ CSimL n ∧ CSimF n := by
  intro n
  induction n with
  | zero =>
    refine ⟨?_, ?_, ?_⟩
    · intro H h' σ' A v v' R
      cases v with
      | prim p => rw [R]; rfl
      | ref a =>
        obtain ⟨d, hd, rfl⟩ := R
        rfl
    · intro H h' σ' A l l' R
      cases R with
      | nil => rfl
      | cons hx hrest => rfl
    · intro H h' σ' A fs fs' R
      cases R with
      | nil => rfl
      | cons hx hrest =>
        rename_i x y xs ys
        obtain ⟨k, v⟩ := x
        obtain ⟨k2, v2⟩ := y
        rfl
  | succ n ihn =>
    obtain ⟨ihV, ihL, ihF⟩ := ihn
    refine ⟨?_, ?_, ?_⟩
    · intro H h' σ' A v v' R
      cases v with
      | prim p => rw [R]; rfl
      | ref a =>
        obtain ⟨d, hd, rfl⟩ := R
        obtain ⟨o₀, o'', ho₀, ho'', hrel⟩ := A a d hd
        cases o₀ with
        | arr l =>
          obtain ⟨l', heq, hf⟩ := hrel
          cases heq
          simp only [cutTree, ho₀, ho'']
          rw [ihL H h' σ' A l l' hf]
        | obj pr fs hid =>
          obtain ⟨fs', heq, hf⟩ := hrel
          cases heq
          simp only [cutTree, ho₀, ho'']
          rw [ihF H h' σ' A fs fs' hf]
    · intro H h' σ' A l l' R
      cases R with
      | nil => rfl
      | cons hx hrest =>
        rename_i x y xs ys
        simp only [cutList]
        rw [ihV H h' σ' A x y hx, ihL H h' σ' A xs ys hrest]
    · intro H h' σ' A fs fs' R
      cases R with
      | nil => rfl
      | cons hx hrest =>
        rename_i x y xs ys
        obtain ⟨k, v⟩ := x
        obtain ⟨k2, v2⟩ := y
        obtain ⟨hk, hv⟩ := hx
        cases hk
        simp only [cutFields]
        rw [ihV H h' σ' A v v2 hv, ihF H h' σ' A xs ys hrest]

/-- A fully recorded clone is structurally deep-equal to its source —
whether or not the source graph is cyclic. -/
theorem clone_deepEq {H h' : Heap} {σ' : Assoc} {v v' : Val}
    (A : AllComplete H h' σ') (R : RelVal σ' v v') : DeepEq H v h' v' :=
  fun n => (cutSim n).1 H h' σ' A v v' R

/- ### Field access by position, and remaining helpers -/

/-- The `i`-th child slot of a composite node (element `i` of an array,
value of the `i`-th insertion-ordered field of an object). -/
def childAt : Obj → Nat → Option Val
  | Obj.arr l, i => l[i]?
  | Obj.obj _ fs _, i =>
    match fs[i]? with
    | none => none
    | some kv => some kv.2

theorem relObj_childAt {σ : Assoc} {o o' : Obj} (hr : RelObj σ o o') {i : Nat} {x : Val}
    (hx : childAt o i = some x) : ∃ y, childAt o' i = some y ∧ RelVal σ x y := by
  cases o with
  | arr l =>
    obtain ⟨l', rfl, hf⟩ := hr
    simp only [childAt] at hx ⊢
    exact forall₂_getElem_left hf hx
  | obj pr fs hid =>
    obtain ⟨fs', rfl, hf⟩ := hr
    simp only [childAt] at hx ⊢
    cases hkv : fs[i]? with
    | none => rw [hkv] at hx; cases hx
    | some kv =>
      rw [hkv] at hx
      simp only [Option.some.injEq] at hx
      obtain ⟨kv', hkv', hrel⟩ := forall₂_getElem_left hf hkv
      rw [hkv']
      exact ⟨kv'.2, rfl, hx ▸ hrel.2⟩

theorem relFields_keys {σ : Assoc} :
    ∀ {fs fs' : List (String × Val)}, RelFields σ fs fs' →
      fs.map Prod.fst = fs'.map Prod.fst := by
  intro fs fs' h
  induction h with
  | nil => rfl
  | cons hx _ ih => simp [hx.1, ih]

/-- With the computable fuel budget, the top-level clone always returns. -/
theorem cloneTop_total {H : Heap} {v : Val}
    (hcl : ClosedHeap H) (hv : ClosedVal H.length v) :
    (cloneTop (enoughFuel H) H v).isSome := by
  have hfree : freeCnt H [] ≤ H.length := freeCnt_le H []
  have hmul : freeCnt H [] * (maxKids H + 1) ≤ H.length * (maxKids H + 1) :=
    Nat.mul_le_mul_right _ hfree
  have hb : freeCnt H [] * (maxKids H + 1) + 1 ≤ enoughFuel H := by
    unfold enoughFuel
    omega
  have hsome := (mainTerm (enoughFuel H)).1 H H [] v hcl (srcOK_refl H)
    (by intro a d hd; simp [seenFind] at hd) hv hb
  obtain ⟨r, hr⟩ := Option.isSome_iff_exists.mp hsome
  obtain ⟨w, hh, σ⟩ := r
  unfold cloneTop
  rw [hr]
  rfl

/- ### Decidability of the well-formedness side conditions -/

instance instDecClosedObj (n : Nat) (o : Obj) : Decidable (ClosedObj n o) :=
  List.decidableBAll _ _

instance instDecClosedHeap (h : Heap) : Decidable (ClosedHeap h) :=
  List.decidableBAll _ _

/- ### The claims -/

/-- C1: every source Node reachable from the root is cloned exactly once
by `clone`: the final visited map `σ'` registers every reachable source
address under exactly one clone address (first conjunct — the lookup is
a function, so one clone per source node), and whenever two fields (or
two paths) of the source graph reference the identical sub-node `s`,
the corresponding two fields of the clone reference the identical clone
address `σ'(s)` — the same object, never two separate copies (second
conjunct). -/
theorem claim1_aliasing_preserved {H h' : Heap} {σ' : Assoc} {v v' : Val} {fuel : Nat}
    (hcl : ClosedHeap H) (hv : ClosedVal H.length v)
    (hrun : deepClone fuel H [] v = some (v', h', σ')) :
    (∀ b, Reaches H v b → ∃ e, seenFind σ' b = some e) ∧
    (∀ a₁ d₁ a₂ d₂ o₁ o₂ o₁' o₂' i₁ i₂ s,
      seenFind σ' a₁ = some d₁ → seenFind σ' a₂ = some d₂ →
      H[a₁]? = some o₁ → H[a₂]? = some o₂ →
      h'[d₁]? = some o₁' → h'[d₂]? = some o₂' →
      childAt o₁ i₁ = some (Val.ref s) → childAt o₂ i₂ = some (Val.ref s) →
      ∃ ds, seenFind σ' s = some ds ∧
        childAt o₁' i₁ = some (Val.ref ds) ∧ childAt o₂' i₂ = some (Val.ref ds)) := by
  obtain ⟨F, R, S, A, C⟩ := topSpec hcl hv hrun
  refine ⟨fun b hb => reach_src_seen A R hb, ?_⟩
  intro a₁ d₁ a₂ d₂ o₁ o₂ o₁' o₂' i₁ i₂ s h₁ h₂ ho₁ ho₂ ho₁' ho₂' hc₁ hc₂
  obtain ⟨p₁, q₁, hp₁, hq₁, hr₁⟩ := A a₁ d₁ h₁
  rw [ho₁] at hp₁
  cases hp₁
  rw [ho₁'] at hq₁
  cases hq₁
  obtain ⟨p₂, q₂, hp₂, hq₂, hr₂⟩ := A a₂ d₂ h₂
  rw [ho₂] at hp₂
  cases hp₂
  rw [ho₂'] at hq₂
  cases hq₂
  obtain ⟨y₁, hy₁, hry₁⟩ := relObj_childAt hr₁ hc₁
  obtain ⟨y₂, hy₂, hry₂⟩ := relObj_childAt hr₂ hc₂
  obtain ⟨ds, hds, rfl⟩ := hry₁
  obtain ⟨ds₂, hds₂, rfl⟩ := hry₂
  rw [hds] at hds₂
  cases hds₂
  exact ⟨ds, hds, hy₁, hy₂⟩

/-- Witness for C1 on the shared-reference graph `[[r1, r1], [7]]`:
both source fields alias node 1, and in the clone both fields hold the
identical fresh address. -/
theorem claim1_witness :
    ∃ ds,
      seenFind [(1, 3), (0, 2)] 1 = some ds ∧
      childAt (Obj.arr [Val.ref 3, Val.ref 3]) 0 = some (Val.ref ds) ∧
      childAt (Obj.arr [Val.ref 3, Val.ref 3]) 1 = some (Val.ref ds) :=
  (claim1_aliasing_preserved (H := [Obj.arr [Val.ref 1, Val.ref 1],
      Obj.arr [Val.prim (Prim.num 7)]])
    (by decide) (by decide)
    (rfl : deepClone 7 [Obj.arr [Val.ref 1, Val.ref 1], Obj.arr [Val.prim (Prim.num 7)]]
        [] (Val.ref 0) =
      some (Val.ref 2,
        [Obj.arr [Val.ref 1, Val.ref 1], Obj.arr [Val.prim (Prim.num 7)],
         Obj.arr [Val.ref 3, Val.ref 3], Obj.arr [Val.prim (Prim.num 7)]],
        [(1, 3), (0, 2)]))).2 0 2 0 2
    (Obj.arr [Val.ref 1, Val.ref 1]) (Obj.arr [Val.ref 1, Val.ref 1])
    (Obj.arr [Val.ref 3, Val.ref 3]) (Obj.arr [Val.ref 3, Val.ref 3])
    0 1 1 rfl rfl rfl rfl rfl rfl rfl rfl

/-- C2: `clone` is total on every finite closed value graph — some fuel
(the computable `enoughFuel` bound) always suffices — and on the
self-referential input `let c = {}; c.self = c;` (a one-object heap whose
`self` field refers to itself) it terminates with a clone `r = ref 1`
whose `self` field is `ref 1` again: `r.self === r`. -/
theorem claim2_terminates_even_on_cycles :
    (∀ (H : Heap) (v : Val), ClosedHeap H → ClosedVal H.length v →
      ∃ fuel r, cloneTop fuel H v = some r) ∧
    cloneTop (enoughFuel [Obj.obj Proto.base [("self", Val.ref 0)] 0])
        [Obj.obj Proto.base [("self", Val.ref 0)] 0] (Val.ref 0) =
      some (Val.ref 1, [Obj.obj Proto.base [("self", Val.ref 0)] 0,
                        Obj.obj Proto.base [("self", Val.ref 1)] 0]) := by
  constructor
  · intro H v hcl hv
    obtain ⟨r, hr⟩ := Option.isSome_iff_exists.mp (cloneTop_total hcl hv)
    exact ⟨enoughFuel H, r, hr⟩
  · rfl

/-- Witness for C2 at a concrete closed input. -/
theorem claim2_witness :
    ∃ fuel r, cloneTop fuel [Obj.arr [Val.prim Prim.null]] (Val.ref 0) = some r :=
  claim2_terminates_even_on_cycles.1 [Obj.arr [Val.prim Prim.null]] (Val.ref 0)
    (by decide) (by decide)

/-- C3: for every finite acyclic value graph (one whose finite tree
unfolding `toTree` exists), the clone unfolds to the very same tree —
same container kinds, same keys, same element order, same primitive
leaves. -/
theorem claim3_roundtrip_shape {H h' : Heap} {σ' : Assoc} {v v' : Val}
    {fuel n : Nat} {t : Tree}
    (hcl : ClosedHeap H) (hv : ClosedVal H.length v)
    (hrun : deepClone fuel H [] v = some (v', h', σ'))
    (ht : toTree n H v = some t) :
    toTree n h' v' = some t := by
  obtain ⟨F, R, S, A, C⟩ := topSpec hcl hv hrun
  exact (treeSim n).1 H h' σ' A v v' R t ht

/-- Witness for C3: the clone of `[1]` unfolds to the same tree as the
source. -/
theorem claim3_witness :
    toTree 2 [Obj.arr [Val.prim (Prim.num 1)], Obj.arr [Val.prim (Prim.num 1)]]
      (Val.ref 1) = some (Tree.arr [Tree.prim (Prim.num 1)]) :=
  claim3_roundtrip_shape (H := [Obj.arr [Val.prim (Prim.num 1)]])
    (by decide) (by decide)
    (rfl : deepClone 3 [Obj.arr [Val.prim (Prim.num 1)]] [] (Val.ref 0) =
      some (Val.ref 1,
        [Obj.arr [Val.prim (Prim.num 1)], Obj.arr [Val.prim (Prim.num 1)]], [(0, 1)]))
    (rfl : toTree 2 [Obj.arr [Val.prim (Prim.num 1)]] (Val.ref 0) =
      some (Tree.arr [Tree.prim (Prim.num 1)]))

/-- C4: independence by fresh allocation: every composite node reachable
from the source root lies at an original address (below `H.length`),
while every composite node reachable from the clone root lies at a
freshly allocated address (at or above `H.length`).  The two graphs
therefore share no composite node, so mutating a container on one side
can never change the corresponding container on the other. -/
theorem claim4_independence {H h' : Heap} {σ' : Assoc} {v v' : Val} {fuel : Nat}
    (hcl : ClosedHeap H) (hv : ClosedVal H.length v)
    (hrun : deepClone fuel H [] v = some (v', h', σ')) :
    (∀ b, Reaches H v b → b < H.length) ∧
    (∀ b, Reaches h' v' b → H.length ≤ b) := by
  obtain ⟨F, R, S, A, C⟩ := topSpec hcl hv hrun
  refine ⟨fun b hb => reaches_lt hcl hv hb, ?_⟩
  intro b hb
  have hbase : ∀ e, v' = Val.ref e → ∃ a, seenFind σ' a = some e := by
    intro e he
    cases v with
    | prim p => rw [R] at he; cases he
    | ref a =>
      obtain ⟨d, hd, rfl⟩ := R
      cases he
      exact ⟨a, hd⟩
  obtain ⟨a, ha⟩ := reach_dest A hb hbase
  exact (S a b ha).2.1

/-- Witness for C4: the root of the clone of `[1]` is the fresh address 1. -/
theorem claim4_witness : List.length [Obj.arr [Val.prim (Prim.num 1)]] ≤ 1 :=
  (claim4_independence (H := [Obj.arr [Val.prim (Prim.num 1)]])
    (by decide) (by decide)
    (rfl : deepClone 3 [Obj.arr [Val.prim (Prim.num 1)]] [] (Val.ref 0) =
      some (Val.ref 1,
        [Obj.arr [Val.prim (Prim.num 1)], Obj.arr [Val.prim (Prim.num 1)]],
        [(0, 1)]))).2 1 (Reaches.here 1)

/-- C5: any primitive (non-container) input — including `null` — is
returned unchanged as the identical value, with the heap untouched; in
particular `clone(5) === 5`, `clone("x") === "x"`, `clone(null) === null`. -/
theorem claim5_primitive_passthrough (fuel : Nat) (h : Heap) (p : Prim) :
    cloneTop (fuel + 1) h (Val.prim p) = some (Val.prim p, h) ∧
    cloneTop 1 h (Val.prim (Prim.num 5)) = some (Val.prim (Prim.num 5), h) ∧
    cloneTop 1 h (Val.prim (Prim.str "x")) = some (Val.prim (Prim.str "x"), h) ∧
    cloneTop 1 h (Val.prim Prim.null) = some (Val.prim Prim.null, h) :=
  ⟨rfl, rfl, rfl, rfl⟩

/-- C6: on a composite not yet in `visited`, the clone allocates a new
empty container of the same kind at the fresh address `h.length` (which
holds nothing yet — first conjunct), registers it in `visited` keyed by
the input's address BEFORE recursing into any child — the population
loop is entered with `(a, h.length)` already in the map — and then
populates it by recursively cloning each element or field in order
(second conjunct, the exact unfolding of the call). -/
theorem claim6_register_before_recursing (fuel : Nat) (h : Heap) (σ : Assoc)
    (a : Nat) (o : Obj) (hmiss : seenFind σ a = none) (ho : h[a]? = some o) :
    h[h.length]? = none ∧
    deepClone (fuel + 1) h σ (Val.ref a) =
      (match o with
       | Obj.arr elems =>
         (match cloneElems fuel (h ++ [Obj.arr []]) ((a, h.length) :: σ)
             h.length elems with
          | none => none
          | some (h', σ') => some (Val.ref h.length, h', σ'))
       | Obj.obj _ fs _ =>
         (match cloneFields fuel (h ++ [Obj.obj Proto.base [] 0]) ((a, h.length) :: σ)
             h.length fs with
          | none => none
          | some (h', σ') => some (Val.ref h.length, h', σ'))) := by
  refine ⟨by simp, ?_⟩
  cases o <;> simp [deepClone, hmiss, ho]

/-- Witness for C6 at a concrete one-array heap. -/
theorem claim6_witness :
    [Obj.arr []][List.length [Obj.arr []]]? = none ∧
    deepClone 2 [Obj.arr []] [] (Val.ref 0) =
      some (Val.ref 1, [Obj.arr [], Obj.arr []], [(0, 1)]) :=
  claim6_register_before_recursing 1 [Obj.arr []] [] 0 (Obj.arr []) rfl rfl

/-- C7: the call never mutates the input graph: after a successful
top-level `clone`, every original address still holds exactly its
original node (and the heap has only grown); the visited map is created
empty inside the call (`cloneTop` passes `[]`) and is not part of the
result, so the call has no effect beyond the new sub-graph it returns. -/
theorem claim7_input_never_mutated {H : Heap} {v v' : Val} {h' : Heap} {fuel : Nat}
    (hcl : ClosedHeap H) (hv : ClosedVal H.length v)
    (hrun : cloneTop fuel H v = some (v', h')) :
    H.length ≤ h'.length ∧ ∀ i, i < H.length → h'[i]? = H[i]? := by
  obtain ⟨σ', hd⟩ := cloneTop_some hrun
  obtain ⟨F, R, S, A, C⟩ := topSpec hcl hv hd
  exact ⟨F.1, F.2⟩

/-- Witness for C7: after cloning the cyclic one-object graph, address 0
still holds the original object. -/
theorem claim7_witness :
    [Obj.obj Proto.base [("self", Val.ref 0)] 0,
     Obj.obj Proto.base [("self", Val.ref 1)] 0][0]? =
      [Obj.obj Proto.base [("self", Val.ref 0)] 0][0]? :=
  (claim7_input_never_mutated (H := [Obj.obj Proto.base [("self", Val.ref 0)] 0])
    (by decide) (by decide)
    (rfl : cloneTop 3 [Obj.obj Proto.base [("self", Val.ref 0)] 0] (Val.ref 0) =
      some (Val.ref 1, [Obj.obj Proto.base [("self", Val.ref 0)] 0,
                        Obj.obj Proto.base [("self", Val.ref 1)] 0]))).2 0 (by decide)

/-- C8: cloning is idempotent up to structural equality: cloning the
clone yields a graph deep-equal (every depth-cut unfolding agrees) to
the original source, for every finite value graph, cyclic ones
included. -/
theorem claim8_idempotent_up_to_shape {H h₁ h₂ : Heap} {σ₁ σ₂ : Assoc}
    {v v₁ v₂ : Val} {fuel₁ fuel₂ : Nat}
    (hcl : ClosedHeap H) (hv : ClosedVal H.length v)
    (h1 : deepClone fuel₁ H [] v = some (v₁, h₁, σ₁))
    (h2 : deepClone fuel₂ h₁ [] v₁ = some (v₂, h₂, σ₂)) :
    DeepEq H v h₂ v₂ := by
  obtain ⟨F1, R1, S1, A1, C1⟩ := topSpec hcl hv h1
  obtain ⟨hclh₁, hv₁⟩ := topClosed hcl hv h1
  obtain ⟨F2, R2, S2, A2, C2⟩ := topSpec hclh₁ hv₁ h2
  intro n
  exact (clone_deepEq A1 R1 n).trans (clone_deepEq A2 R2 n)

/-- Witness for C8: the double clone of the cyclic one-object graph has
the same depth-3 cut as the source. -/
theorem claim8_witness :
    cutTree 3 [Obj.obj Proto.base [("self", Val.ref 0)] 0] (Val.ref 0) =
      cutTree 3 [Obj.obj Proto.base [("self", Val.ref 0)] 0,
                 Obj.obj Proto.base [("self", Val.ref 1)] 0,
                 Obj.obj Proto.base [("self", Val.ref 2)] 0] (Val.ref 2) :=
  claim8_idempotent_up_to_shape (H := [Obj.obj Proto.base [("self", Val.ref 0)] 0])
    (by decide) (by decide)
    (rfl : deepClone 3 [Obj.obj Proto.base [("self", Val.ref 0)] 0] [] (Val.ref 0) =
      some (Val.ref 1,
        [Obj.obj Proto.base [("self", Val.ref 0)] 0,
         Obj.obj Proto.base [("self", Val.ref 1)] 0], [(0, 1)]))
    (rfl : deepClone 3 [Obj.obj Proto.base [("self", Val.ref 0)] 0,
        Obj.obj Proto.base [("self", Val.ref 1)] 0] [] (Val.ref 1) =
      some (Val.ref 2,
        [Obj.obj Proto.base [("self", Val.ref 0)] 0,
         Obj.obj Proto.base [("self", Val.ref 1)] 0,
         Obj.obj Proto.base [("self", Val.ref 2)] 0], [(1, 2)])) 3

/-- C9: no distinguished error kinds: for every well-formed finite input
(a closed heap, which is every graph representable in JavaScript) the
call returns a value rather than failing — the computable fuel bound
`enoughFuel` always suffices; the code inspects the input only through
the structural container-versus-primitive test. -/
theorem claim9_never_raises {H : Heap} {v : Val}
    (hcl : ClosedHeap H) (hv : ClosedVal H.length v) :
    (cloneTop (enoughFuel H) H v).isSome :=
  cloneTop_total hcl hv

/-- Witness for C9 on the cyclic one-object graph. -/
theorem claim9_witness :
    (cloneTop (enoughFuel [Obj.obj Proto.base [("self", Val.ref 0)] 0])
      [Obj.obj Proto.base [("self", Val.ref 0)] 0] (Val.ref 0)).isSome :=
  claim9_never_raises (by decide) (by decide)

/-- C10: cloning a non-array object produces a fresh plain object: the
result is a newly allocated address holding an object whose prototype is
`Object.prototype` (`Proto.base`) whatever the input's prototype was,
with no symbol-keyed or non-enumerable properties (`hidden = 0`)
whatever the input had, and whose own enumerable string-keyed fields are
exactly the input's `Object.keys` fields, same keys in the same order,
each value recursively cloned (related by the final visited map). -/
theorem claim10_plain_object_result {H h' : Heap} {σ' : Assoc} {v' : Val}
    {fuel a : Nat} {pr : Proto} {fs : List (String × Val)} {hid : Nat}
    (hcl : ClosedHeap H) (ha : a < H.length)
    (ho : H[a]? = some (Obj.obj pr fs hid))
    (hrun : deepClone fuel H [] (Val.ref a) = some (v', h', σ')) :
    ∃ d fs', v' = Val.ref d ∧ H.length ≤ d ∧
      h'[d]? = some (Obj.obj Proto.base fs' 0) ∧
      fs.map Prod.fst = fs'.map Prod.fst ∧ RelFields σ' fs fs' := by
  obtain ⟨F, R, S, A, C⟩ := topSpec hcl (show ClosedVal H.length (Val.ref a) from ha) hrun
  obtain ⟨d, hd, rfl⟩ := R
  obtain ⟨o₀, o'', ho₀, ho'', hrel⟩ := A a d hd
  rw [ho] at ho₀
  cases ho₀
  obtain ⟨fs', heq, hf⟩ := hrel
  cases heq
  exact ⟨d, fs', rfl, (S a d hd).2.1, ho'', relFields_keys hf, hf⟩

/-- Witness for C10 on an object with a custom prototype and two hidden
properties: the clone is a fresh plain object without them. -/
theorem claim10_witness :
    ∃ d fs', Val.ref 1 = Val.ref d ∧
      List.length [Obj.obj (Proto.other 3) [("x", Val.prim (Prim.num 1))] 2] ≤ d ∧
      [Obj.obj (Proto.other 3) [("x", Val.prim (Prim.num 1))] 2,
       Obj.obj Proto.base [("x", Val.prim (Prim.num 1))] 0][d]? =
        some (Obj.obj Proto.base fs' 0) ∧
      [("x", Val.prim (Prim.num 1))].map Prod.fst = fs'.map Prod.fst ∧
      RelFields [(0, 1)] [("x", Val.prim (Prim.num 1))] fs' :=
  claim10_plain_object_result (H := [Obj.obj (Proto.other 3)
      [("x", Val.prim (Prim.num 1))] 2])
    (by decide) (by decide) rfl
    (rfl : deepClone 3 [Obj.obj (Proto.other 3) [("x", Val.prim (Prim.num 1))] 2]
        [] (Val.ref 0) =
      some (Val.ref 1,
        [Obj.obj (Proto.other 3) [("x", Val.prim (Prim.num 1))] 2,
         Obj.obj Proto.base [("x", Val.prim (Prim.num 1))] 0], [(0, 1)]))

end DC
